import Mathlib

/-!
Shallow embedding of `scripts/backup_to_cloud.py` (class `BackupUtils`):
the snapshot name codec (`getDateFromName`), catalog classification
(`findOldFolders`, `findOldZipArchives`, the remote classification loop of
`cleanRemoteFolder`), incremental base selection (`setCompareDst` /
`backupFolder`), local retention planning (`cleanLocalFolder`) and remote
retention planning (`cleanRemoteFolder`), together with theorems about the
retention logic.

Modelling conventions:
* Python `datetime` values are modelled by the `DateTime` structure below;
  comparison of two `datetime`s is modelled by comparing `DateTime.key`
  (a place-value encoding that agrees with lexicographic field comparison
  because every parsed field has at most two digits, the year four).
* Python code that can raise an exception is modelled with `Except Unit`
  (for the scanning loops) or with the `DecodeResult.valueError`
  constructor (for the `datetime(...)` constructor call inside
  `getDateFromName`, which raises `ValueError` on out-of-range fields).
* The regex `\d` is modelled as an ASCII decimal digit, and `.` as any
  character other than a newline; the trailing `(.*)$` of the name regex is
  modelled by `tailCapture`, including Python's rule that `$` also matches
  just before a newline that ends the string.
* `os.listdir` results are modelled as an explicit `List String` argument;
  `os.path.join(path, folder)` is modelled by `joinPath` for the plain
  relative entry names that `os.listdir` produces.
-/

/-- A Python `datetime` value as built by `getDateFromName`:
`datetime(year, month, day, hour, minute, second)`. -/
structure DateTime where
  year : Nat
  month : Nat
  day : Nat
  hour : Nat
  minute : Nat
  second : Nat
deriving DecidableEq, Repr

/-- Place-value encoding of a `DateTime`.  For the values produced by the
name codec every field except the year has at most two digits, so comparing
keys agrees with Python's lexicographic `datetime` comparison. -/
def DateTime.key (dt : DateTime) : Nat :=
  ((((dt.year * 100 + dt.month) * 100 + dt.day) * 100 + dt.hour) * 100 +
      dt.minute) * 100 + dt.second

/-- ASCII decimal digit, the model of the regex class `\d`. -/
def isDigit (c : Char) : Bool :=
  decide ('0' ≤ c) && decide (c ≤ '9')

/-- Numeric value of a digit character (`int` applied to a digit group). -/
def digitVal (c : Char) : Nat :=
  c.toNat - 48

/-- `int` applied to a string of digit characters. -/
def parseDigits (l : List Char) : Nat :=
  l.foldl (fun acc c => acc * 10 + digitVal c) 0

/-- The fixed-width part of the regex
`(\d{4})(\d{2})(\d{2})_(\d{2})(\d{2})(\d{2})`: 8 digits, an underscore and
6 more digits at the start of the name.  Returns the date digits, the time
digits and the remaining characters. -/
def splitName : List Char → Option (List Char × List Char × List Char)
  | a1 :: a2 :: a3 :: a4 :: a5 :: a6 :: a7 :: a8 :: u ::
      b1 :: b2 :: b3 :: b4 :: b5 :: b6 :: rest =>
    if isDigit a1 && isDigit a2 && isDigit a3 && isDigit a4 &&
        isDigit a5 && isDigit a6 && isDigit a7 && isDigit a8 &&
        u == '_' &&
        isDigit b1 && isDigit b2 && isDigit b3 && isDigit b4 &&
        isDigit b5 && isDigit b6 then
      some ([a1, a2, a3, a4, a5, a6, a7, a8], [b1, b2, b3, b4, b5, b6], rest)
    else
      none
  | _ => none

/-- The trailing `(.*)$` of the name regex: `.` does not match a newline
and `$` matches at the end of the string or just before a final newline.
Returns the characters captured by the group, or `none` if the regex cannot
complete (a newline occurs before the final position). -/
def tailCapture (s : List Char) : Option (List Char) :=
  if s.all (fun c => c != '\n') then some s
  else if s.dropLast.all (fun c => c != '\n') && s.getLastD 'x' == '\n' then
    some s.dropLast
  else none

/-- Gregorian leap-year rule used by Python `datetime`. -/
def isLeapYear (y : Nat) : Bool :=
  y % 4 == 0 && (y % 100 != 0 || y % 400 == 0)

/-- Days in a month, as validated by the Python `datetime` constructor. -/
def daysInMonth (y m : Nat) : Nat :=
  if m == 2 then (if isLeapYear y then 29 else 28)
  else if m == 4 || m == 6 || m == 9 || m == 11 then 30
  else 31

/-- Range checks performed by `datetime(year, month, day, hour, minute,
second)`; if any fails the constructor raises `ValueError`. -/
def pyDatetimeOK (dt : DateTime) : Bool :=
  decide (1 ≤ dt.year) && decide (dt.year ≤ 9999) &&
  decide (1 ≤ dt.month) && decide (dt.month ≤ 12) &&
  decide (1 ≤ dt.day) && decide (dt.day ≤ daysInMonth dt.year dt.month) &&
  decide (dt.hour ≤ 23) && decide (dt.minute ≤ 59) && decide (dt.second ≤ 59)

/-- Result of `BackupUtils.getDateFromName`: the regex fails to match
(the method returns `(None, None)`), the `datetime` constructor raises
`ValueError`, or a `(date, suffix)` pair is returned. -/
inductive DecodeResult where
  | noMatch : DecodeResult
  | valueError : DecodeResult
  | ok : DateTime → String → DecodeResult
deriving DecidableEq, Repr

/-- `BackupUtils.getDateFromName` (lines 153-160): match
`(\d{4})(\d{2})(\d{2})_(\d{2})(\d{2})(\d{2})(.*)$` against the name and
build a `datetime` from the six numeric groups, returning group 7 as the
suffix. -/
def getDateFromName (name : String) : DecodeResult :=
  match splitName name.data with
  | none => .noMatch
  | some (a, b, rest) =>
    match tailCapture rest with
    | none => .noMatch
    | some suf =>
      let dt : DateTime :=
        { year := parseDigits (a.take 4)
          month := parseDigits ((a.drop 4).take 2)
          day := parseDigits (a.drop 6)
          hour := parseDigits (b.take 2)
          minute := parseDigits ((b.drop 2).take 2)
          second := parseDigits (b.drop 4) }
      if pyDatetimeOK dt then .ok dt (String.mk suf) else .valueError

/-- A catalog entry: the full path of the folder or archive paired with its
decoded timestamp (the `(full_path, file_date)` tuples of the source). -/
abbrev Entry := String × DateTime

/-- `os.path.join(path, folder)` for the plain relative names produced by
`os.listdir`. -/
def joinPath (root name : String) : String :=
  root ++ "/" ++ name

/-- `BackupUtils.findOldFolders` (lines 191-209): classify each listed name
into the full-folder list (empty suffix) or the diff-folder list (suffix
exactly `"_diff"`), skipping names that do not decode; a `ValueError`
raised by `getDateFromName` propagates. -/
def findOldFolders (root : String) : List String → Except Unit (List Entry × List Entry)
  | [] => .ok ([], [])
  | n :: ns =>
    match getDateFromName n with
    | .valueError => .error ()
    | .noMatch => findOldFolders root ns
    | .ok dt suf =>
      match findOldFolders root ns with
      | .error e => .error e
      | .ok (fs, ds) =>
        if suf.length = 0 then .ok ((joinPath root n, dt) :: fs, ds)
        else if suf = "_diff" then .ok (fs, (joinPath root n, dt) :: ds)
        else .ok (fs, ds)

/-- Python slicing `l[-n:]`: the last `n` characters (the whole string when
it is shorter than `n`). -/
def lastN (n : Nat) (l : List Char) : List Char :=
  l.drop (l.length - n)

/-- The archive-extension test of `findOldZipArchives`:
`suffix[-3:] == ".7z" or suffix[-4:] == ".zip"`. -/
def zipExt (s : String) : Bool :=
  lastN 3 s.data == ['.', '7', 'z'] || lastN 4 s.data == ['.', 'z', 'i', 'p']

/-- `re.search` for a plain-text pattern: the pattern occurs as a
contiguous substring. -/
def hasSubList (pat : List Char) : List Char → Bool
  | [] => pat.isEmpty
  | c :: rest => pat.isPrefixOf (c :: rest) || hasSubList pat rest

/-- `BackupUtils.findOldZipArchives` (lines 211-230): names whose suffix
ends in `.7z` or `.zip` are archives; those whose suffix contains `_diff`
go to the diff list, the rest to the full list. -/
def findOldZipArchives (root : String) : List String → Except Unit (List Entry × List Entry)
  | [] => .ok ([], [])
  | n :: ns =>
    match getDateFromName n with
    | .valueError => .error ()
    | .noMatch => findOldZipArchives root ns
    | .ok dt suf =>
      match findOldZipArchives root ns with
      | .error e => .error e
      | .ok (fs, ds) =>
        if zipExt suf then
          if hasSubList "_diff".data suf.data then
            .ok (fs, (joinPath root n, dt) :: ds)
          else
            .ok ((joinPath root n, dt) :: fs, ds)
        else .ok (fs, ds)

/-- Stable insertion used to model Python's stable `sorted(·, key=lambda
x: x[1])`: insert before the first element with a key not smaller. -/
def insEntry (x : Entry) : List Entry → List Entry
  | [] => [x]
  | y :: ys => if x.2.key ≤ y.2.key then x :: y :: ys else y :: insEntry x ys

/-- Python's stable `sorted(l, key=lambda x: x[1])`. -/
def sortTS : List Entry → List Entry
  | [] => []
  | x :: xs => insEntry x (sortTS xs)

/-- `BackupUtils.setCompareDst` (lines 232-251), given the catalog produced
by `findOldFolders`: `None` when there is no full folder, otherwise the
last element of the fulls sorted by date together with the diff folders
strictly newer than it, in their original catalog order (the dict
comprehension preserves the `filter` order). -/
def selectBase (full_list diff_list : List Entry) : Option (Entry × List Entry) :=
  match (sortTS full_list).getLast? with
  | none => none
  | some lf => some (lf, diff_list.filter (fun x => decide (lf.2.key < x.2.key)))

/-- The ordered `--compare-dest` paths handed to rsync by
`BackupUtils.backupFolder` (lines 278-292): the full first, then the
selected diffs in order. -/
def compareBases (full_list diff_list : List Entry) : List String :=
  match selectBase full_list diff_list with
  | none => []
  | some (f, ds) => f.1 :: ds.map (fun e => e.1)

/-- The `full_before_target` list of `BackupUtils.cleanLocalFolder`
(lines 386-389): sort the pooled fulls by date, drop the last (most
recent) one, and keep those strictly older than the cutoff. -/
def agedFulls (fulls : List Entry) (cutoff : DateTime) : List Entry :=
  ((sortTS fulls).dropLast).filter (fun e => decide (e.2.key < cutoff.key))

/-- The diff-sweeping loop of `cleanLocalFolder` (lines 391-397): the
pooled diffs, sorted by date, that are strictly older than the pivot (the
date of the last aged full). -/
def cascadeDiffs (fulls diffs : List Entry) (cutoff : DateTime) : List Entry :=
  match (agedFulls fulls cutoff).getLast? with
  | none => []
  | some pivot => (sortTS diffs).filter (fun e => decide (e.2.key < pivot.2.key))

/-- The `tobe_deleted_list` computed by `BackupUtils.cleanLocalFolder`
(lines 384-400) over the pooled full and diff catalogs: nothing when no
candidate full is aged; otherwise the swept diffs, followed (only when not
in incremental mode) by the aged fulls. -/
def cleanPlanCore (fulls diffs : List Entry) (cutoff : DateTime)
    (incremental : Bool) : List Entry :=
  match (agedFulls fulls cutoff).getLast? with
  | none => []
  | some pivot =>
    let cascade := (sortTS diffs).filter (fun e => decide (e.2.key < pivot.2.key))
    if incremental then cascade else cascade ++ agedFulls fulls cutoff

/-- `cleanLocalFolder`'s plan over the four scanned lists: the folder and
archive catalogs are pooled (`full_list + zip_full_list` and
`diff_list + zip_diff_list`). -/
def cleanPlan (full_list zip_full_list diff_list zip_diff_list : List Entry)
    (cutoff : DateTime) (incremental : Bool) : List Entry :=
  cleanPlanCore (full_list ++ zip_full_list) (diff_list ++ zip_diff_list)
    cutoff incremental

/-- Classification outcome for an archive name: the three catalog outcomes
plus the `ValueError` exception path of the decoder. -/
inductive RKind where
  | full : RKind
  | diff : RKind
  | unclassified : RKind
  | exn : RKind
deriving DecidableEq, Repr

/-- The local archive classification of `findOldZipArchives`, applied to a
single name. -/
def archiveKindLocal (name : String) : RKind :=
  match getDateFromName name with
  | .valueError => .exn
  | .noMatch => .unclassified
  | .ok _ suf =>
    if zipExt suf then
      if hasSubList "_diff".data suf.data then .diff else .full
    else .unclassified

/-- Matcher for the tail of the remote diff regex after its leading
underscore: `diff` then any non-newline character then `7z` or `zip`. -/
def matchAfterUnderscore : List Char → Bool
  | b1 :: b2 :: b3 :: b4 :: c :: rest =>
    b1 == 'd' && b2 == 'i' && b3 == 'f' && b4 == 'f' && c != '\n' &&
      (List.isPrefixOf ['7', 'z'] rest || List.isPrefixOf ['z', 'i', 'p'] rest)
  | _ => false

/-- Does `_diff.(7z|zip)` match at the head of the character list? -/
def matchDiffArcAt : List Char → Bool
  | [] => false
  | u :: rest => u == '_' && matchAfterUnderscore rest

/-- `re.search("_diff.(7z|zip)", s)`: the pattern matches at some
position. -/
def searchDiffArc : List Char → Bool
  | [] => false
  | u :: rest => matchDiffArcAt (u :: rest) || searchDiffArc rest

/-- The remote classification loop of `BackupUtils.cleanRemoteFolder`
(lines 424-432), applied to a single name: `re.search("_diff.(7z|zip)",
name)` makes a diff archive, otherwise a suffix equal to `.7z` or `.zip`
makes a full archive. -/
def archiveKindRemote (name : String) : RKind :=
  match getDateFromName name with
  | .valueError => .exn
  | .noMatch => .unclassified
  | .ok _ suf =>
    if searchDiffArc name.data then .diff
    else if suf = ".7z" || suf = ".zip" then .full
    else .unclassified

/-- The remote classification loop of `cleanRemoteFolder` over a whole
listing, producing `(full_archive_list, diff_archive_list)`; a decoder
`ValueError` propagates. -/
def classifyRemote : List String → Except Unit (List Entry × List Entry)
  | [] => .ok ([], [])
  | n :: ns =>
    match getDateFromName n with
    | .valueError => .error ()
    | .noMatch => classifyRemote ns
    | .ok dt suf =>
      match classifyRemote ns with
      | .error e => .error e
      | .ok (fs, ds) =>
        if searchDiffArc n.data then .ok (fs, (n, dt) :: ds)
        else if suf = ".7z" || suf = ".zip" then .ok ((n, dt) :: fs, ds)
        else .ok (fs, ds)

/-- The deletions performed by `BackupUtils.cleanRemoteFolder`
(lines 434-446): in incremental mode every diff archive strictly older
than the cutoff, otherwise every full archive strictly older than the
cutoff. -/
def cleanRemotePlan (listing : List String) (cutoff : DateTime)
    (incremental : Bool) : Except Unit (List Entry) :=
  match classifyRemote listing with
  | .error e => .error e
  | .ok (fs, ds) =>
    if incremental then .ok (ds.filter (fun e => decide (e.2.key < cutoff.key)))
    else .ok (fs.filter (fun e => decide (e.2.key < cutoff.key)))

/-- Two-digit zero-padded field of `strftime('%Y%m%d_%H%M%S')` (all the
formatted fields except the year are below 100 for a valid datetime). -/
def fmt2 (n : Nat) : List Char :=
  [Nat.digitChar (n / 10), Nat.digitChar (n % 10)]

/-- Four-digit zero-padded year field of `strftime('%Y%m%d_%H%M%S')`. -/
def fmt4 (n : Nat) : List Char :=
  [Nat.digitChar (n / 1000), Nat.digitChar (n / 100 % 10),
    Nat.digitChar (n / 10 % 10), Nat.digitChar (n % 10)]

/-- `datetime.now().strftime('%Y%m%d_%H%M%S')`. -/
def fmtDateTime (dt : DateTime) : String :=
  String.mk (fmt4 dt.year ++ fmt2 dt.month ++ fmt2 dt.day ++ ['_'] ++
    fmt2 dt.hour ++ fmt2 dt.minute ++ fmt2 dt.second)

/-- Python `str(i)` for the collision counter `i` of `mkDst`, which ranges
over `range(100)`: one or two decimal digits. -/
def natStr (i : Nat) : List Char :=
  if i < 10 then [Nat.digitChar i] else [Nat.digitChar (i / 10), Nat.digitChar (i % 10)]

/-- The basename produced by `BackupUtils.mkDst` (lines 174-189): the
timestamp, then (for collision attempt `i > 0`) the decimal counter, then
`_diff` in incremental mode. -/
def collisionName (dt : DateTime) (i : Nat) (incremental : Bool) : String :=
  fmtDateTime dt ++ (if 0 < i then String.mk (natStr i) else "") ++
    (if incremental then "_diff" else "")

/-! ### Lemma kit for the stable sort and list plumbing -/

/-- The sort order used throughout the planners. -/
def entLE (a b : Entry) : Prop := a.2.key ≤ b.2.key

theorem mem_insEntry {a x : Entry} {l : List Entry} :
    a ∈ insEntry x l ↔ a = x ∨ a ∈ l := by
  induction l with
  | nil => simp [insEntry]
  | cons y ys ih =>
    simp only [insEntry]
    split
    · simp [List.mem_cons]
    · simp only [List.mem_cons, ih]
      tauto

theorem insEntry_perm (x : Entry) (l : List Entry) :
    List.Perm (insEntry x l) (x :: l) := by
  induction l with
  | nil => simp [insEntry]
  | cons y ys ih =>
    simp only [insEntry]
    split
    · exact List.Perm.refl _
    · exact (ih.cons y).trans (List.Perm.swap x y ys)

theorem sortTS_perm (l : List Entry) : List.Perm (sortTS l) l := by
  induction l with
  | nil => exact List.Perm.refl _
  | cons x xs ih => exact (insEntry_perm x (sortTS xs)).trans (ih.cons x)

theorem mem_sortTS {a : Entry} {l : List Entry} : a ∈ sortTS l ↔ a ∈ l :=
  (sortTS_perm l).mem_iff

theorem sortTS_eq_nil_iff {l : List Entry} : sortTS l = [] ↔ l = [] := by
  constructor
  · intro h
    have := (sortTS_perm l).length_eq
    rw [h] at this
    exact List.length_eq_zero.mp this.symm
  · intro h; subst h; rfl

theorem pairwise_insEntry {x : Entry} {l : List Entry}
    (h : l.Pairwise entLE) : (insEntry x l).Pairwise entLE := by
  induction l with
  | nil => simp [insEntry]
  | cons y ys ih =>
    rcases List.pairwise_cons.mp h with ⟨hy, hys⟩
    simp only [insEntry]
    split
    · rename_i hxy
      refine List.pairwise_cons.mpr ⟨?_, h⟩
      intro b hb
      rcases List.mem_cons.mp hb with rfl | hb
      · exact hxy
      · exact Nat.le_trans hxy (hy b hb)
    · rename_i hxy
      refine List.pairwise_cons.mpr ⟨?_, ih hys⟩
      intro b hb
      rcases mem_insEntry.mp hb with rfl | hb
      · exact Nat.le_of_not_le hxy
      · exact hy b hb

theorem sortTS_sorted (l : List Entry) : (sortTS l).Pairwise entLE := by
  induction l with
  | nil => simp [sortTS]
  | cons x xs ih => exact pairwise_insEntry ih

theorem insEntry_of_le_all {x : Entry} {l : List Entry}
    (h : ∀ z ∈ l, x.2.key ≤ z.2.key) : insEntry x l = x :: l := by
  cases l with
  | nil => rfl
  | cons y ys => simp [insEntry, h y (List.mem_cons_self y ys)]

theorem filter_insEntry (p : Entry → Bool) {x : Entry} {l : List Entry}
    (hl : l.Pairwise entLE) :
    (insEntry x l).filter p =
      if p x then insEntry x (l.filter p) else l.filter p := by
  induction l with
  | nil =>
    by_cases hpx : p x <;> simp [insEntry, List.filter_cons, hpx]
  | cons y ys ih =>
    rcases List.pairwise_cons.mp hl with ⟨hy, hys⟩
    by_cases hxy : x.2.key ≤ y.2.key
    · have h2 : insEntry x (List.filter p ys) = x :: List.filter p ys :=
        insEntry_of_le_all
          (fun z hz => Nat.le_trans hxy (hy z (List.mem_of_mem_filter hz)))
      have h1 : insEntry x (y :: List.filter p ys) = x :: y :: List.filter p ys := by
        simp [insEntry, hxy]
      by_cases hpx : p x <;> by_cases hpy : p y <;>
        simp [insEntry, hxy, List.filter_cons, hpx, hpy, h1, h2]
    · have h3 : ∀ m : List Entry, insEntry x (y :: m) = y :: insEntry x m := by
        intro m; simp [insEntry, hxy]
      by_cases hpx : p x <;> by_cases hpy : p y <;>
        simp [insEntry, hxy, List.filter_cons, hpx, hpy, ih hys, h3]

theorem sortTS_filter (p : Entry → Bool) (l : List Entry) :
    sortTS (l.filter p) = (sortTS l).filter p := by
  induction l with
  | nil => rfl
  | cons x xs ih =>
    rw [List.filter_cons]
    by_cases hpx : p x
    · rw [if_pos hpx]
      show insEntry x (sortTS (xs.filter p)) = (insEntry x (sortTS xs)).filter p
      rw [ih, filter_insEntry p (sortTS_sorted xs), if_pos hpx]
    · rw [if_neg hpx]
      show sortTS (xs.filter p) = (insEntry x (sortTS xs)).filter p
      rw [ih, filter_insEntry p (sortTS_sorted xs), if_neg hpx]

theorem mem_of_getLast?_eq {l : List Entry} {a : Entry}
    (h : l.getLast? = some a) : a ∈ l := by
  have hmem : a ∈ l.getLast? := by rw [h]; rfl
  have := List.dropLast_append_getLast? a hmem
  rw [← this]
  exact List.mem_append_right _ (List.mem_singleton.mpr rfl)

theorem sorted_getLast?_max {l : List Entry} (h : l.Pairwise entLE) {m : Entry}
    (hm : l.getLast? = some m) : ∀ x ∈ l, x.2.key ≤ m.2.key := by
  induction l with
  | nil => simp at hm
  | cons y ys ih =>
    rcases List.pairwise_cons.mp h with ⟨hy, hys⟩
    cases ys with
    | nil =>
      simp only [List.getLast?_singleton, Option.some.injEq] at hm
      subst hm
      intro x hx
      rcases List.mem_singleton.mp hx with rfl
      exact Nat.le_refl _
    | cons z zs =>
      rw [List.getLast?_cons_cons] at hm
      intro x hx
      rcases List.mem_cons.mp hx with rfl | hx'
      · exact Nat.le_trans (hy m (mem_of_getLast?_eq hm)) (Nat.le_refl _)
      · exact ih hys hm x hx'

/-! ### Facts about the local retention planner -/

theorem agedFulls_sorted (fulls : List Entry) (cutoff : DateTime) :
    (agedFulls fulls cutoff).Pairwise entLE :=
  List.Pairwise.filter _ ((sortTS_sorted fulls).sublist (List.dropLast_sublist _))

theorem agedFulls_subset {fulls : List Entry} {cutoff : DateTime} {e : Entry}
    (h : e ∈ agedFulls fulls cutoff) : e ∈ fulls :=
  mem_sortTS.mp (List.mem_of_mem_dropLast (List.mem_of_mem_filter h))

theorem cleanPlanCore_none {fulls diffs : List Entry} {cutoff : DateTime}
    {inc : Bool} (h : (agedFulls fulls cutoff).getLast? = none) :
    cleanPlanCore fulls diffs cutoff inc = [] := by
  unfold cleanPlanCore
  rw [h]

theorem cleanPlanCore_some {fulls diffs : List Entry} {cutoff : DateTime}
    {inc : Bool} {pivot : Entry}
    (h : (agedFulls fulls cutoff).getLast? = some pivot) :
    cleanPlanCore fulls diffs cutoff inc =
      if inc then (sortTS diffs).filter (fun e => decide (e.2.key < pivot.2.key))
      else (sortTS diffs).filter (fun e => decide (e.2.key < pivot.2.key)) ++
        agedFulls fulls cutoff := by
  unfold cleanPlanCore
  rw [h]

/-- C3: for every catalog, cutoff and mode, if no candidate full (all fulls
except the sorted-last one) is older than the cutoff the plan is empty;
otherwise, with the pivot being the most recent aged candidate full, the
plan contains every diff strictly older than the pivot regardless of the
diff's own age, and no diff at or after the pivot (for catalogs in which no
diff entry is also listed as a full entry). -/
theorem cleanLocal_cascade_rule (fulls diffs : List Entry) (cutoff : DateTime)
    (inc : Bool) (hdisj : ∀ e ∈ diffs, e ∉ fulls) :
    (agedFulls fulls cutoff = [] → cleanPlanCore fulls diffs cutoff inc = []) ∧
    (∀ pivot, (agedFulls fulls cutoff).getLast? = some pivot →
      (∀ a ∈ agedFulls fulls cutoff, a.2.key ≤ pivot.2.key) ∧
      (∀ d ∈ diffs,
        (d.2.key < pivot.2.key → d ∈ cleanPlanCore fulls diffs cutoff inc) ∧
        (pivot.2.key ≤ d.2.key → d ∉ cleanPlanCore fulls diffs cutoff inc))) := by
  constructor
  · intro h
    exact cleanPlanCore_none (by rw [h]; rfl)
  · intro pivot hp
    refine ⟨sorted_getLast?_max (agedFulls_sorted fulls cutoff) hp, ?_⟩
    intro d hd
    constructor
    · intro hlt
      have hmem : d ∈ (sortTS diffs).filter (fun e => decide (e.2.key < pivot.2.key)) :=
        List.mem_filter.mpr ⟨mem_sortTS.mpr hd, by simpa using hlt⟩
      rw [cleanPlanCore_some hp]
      cases inc <;> simp [List.mem_append, hmem]
    · intro hge hplan
      rw [cleanPlanCore_some hp] at hplan
      cases inc with
      | true =>
        simp only [if_true] at hplan
        have := (List.mem_filter.mp hplan).2
        simp at this
        omega
      | false =>
        simp only [if_false, Bool.false_eq_true] at hplan
        rcases List.mem_append.mp hplan with hc | ha
        · have := (List.mem_filter.mp hc).2
          simp at this
          omega
        · exact hdisj d hd (agedFulls_subset ha)

/-- Witness for C3: the §8 scenario (now = 2024-06-15, threshold 3 days):
pivot is the day-5 full, the day-12 diff is swept, the day-2 diff is
kept. -/
theorem cleanLocal_cascade_rule_witness :
    ("d12", (⟨2024, 6, 3, 0, 0, 0⟩ : DateTime)) ∈
      cleanPlanCore
        [("f10", ⟨2024, 6, 5, 0, 0, 0⟩), ("f5", ⟨2024, 6, 10, 0, 0, 0⟩),
          ("f1", ⟨2024, 6, 14, 0, 0, 0⟩)]
        [("d12", ⟨2024, 6, 3, 0, 0, 0⟩), ("d7", ⟨2024, 6, 8, 0, 0, 0⟩),
          ("d2", ⟨2024, 6, 13, 0, 0, 0⟩)]
        ⟨2024, 6, 12, 0, 0, 0⟩ false ∧
    ("d2", (⟨2024, 6, 13, 0, 0, 0⟩ : DateTime)) ∉
      cleanPlanCore
        [("f10", ⟨2024, 6, 5, 0, 0, 0⟩), ("f5", ⟨2024, 6, 10, 0, 0, 0⟩),
          ("f1", ⟨2024, 6, 14, 0, 0, 0⟩)]
        [("d12", ⟨2024, 6, 3, 0, 0, 0⟩), ("d7", ⟨2024, 6, 8, 0, 0, 0⟩),
          ("d2", ⟨2024, 6, 13, 0, 0, 0⟩)]
        ⟨2024, 6, 12, 0, 0, 0⟩ false := by
  have h := cleanLocal_cascade_rule
    [("f10", ⟨2024, 6, 5, 0, 0, 0⟩), ("f5", ⟨2024, 6, 10, 0, 0, 0⟩),
      ("f1", ⟨2024, 6, 14, 0, 0, 0⟩)]
    [("d12", ⟨2024, 6, 3, 0, 0, 0⟩), ("d7", ⟨2024, 6, 8, 0, 0, 0⟩),
      ("d2", ⟨2024, 6, 13, 0, 0, 0⟩)]
    ⟨2024, 6, 12, 0, 0, 0⟩ false (by decide)
  have h2 := (h.2 ("f5", ⟨2024, 6, 10, 0, 0, 0⟩) (by decide)).2
  exact ⟨(h2 _ (by decide)).1 (by decide), (h2 _ (by decide)).2 (by decide)⟩

/-- C5: in incremental mode the local plan is exactly the cascade diffs,
and every planned entry is a diff catalog entry (no full entry is ever
planned). -/
theorem incremental_plan_diffs_only (fulls diffs : List Entry)
    (cutoff : DateTime) :
    cleanPlanCore fulls diffs cutoff true = cascadeDiffs fulls diffs cutoff ∧
    ∀ e ∈ cleanPlanCore fulls diffs cutoff true, e ∈ diffs := by
  have heq : cleanPlanCore fulls diffs cutoff true = cascadeDiffs fulls diffs cutoff := by
    unfold cleanPlanCore cascadeDiffs
    cases h : (agedFulls fulls cutoff).getLast? <;> simp
  refine ⟨heq, ?_⟩
  intro e he
  rw [heq] at he
  unfold cascadeDiffs at he
  cases h : (agedFulls fulls cutoff).getLast? with
  | none => rw [h] at he; simp at he
  | some pivot =>
    rw [h] at he
    exact mem_sortTS.mp (List.mem_of_mem_filter he)

/-- Witness for C5: in the §8 scenario under incremental mode the swept
day-12 entry is indeed a diff catalog entry. -/
theorem incremental_plan_diffs_only_witness :
    ("d12", (⟨2024, 6, 3, 0, 0, 0⟩ : DateTime)) ∈
      [("d12", (⟨2024, 6, 3, 0, 0, 0⟩ : DateTime)),
        ("d7", (⟨2024, 6, 8, 0, 0, 0⟩ : DateTime)),
        ("d2", (⟨2024, 6, 13, 0, 0, 0⟩ : DateTime))] :=
  (incremental_plan_diffs_only
    [("f10", ⟨2024, 6, 5, 0, 0, 0⟩), ("f5", ⟨2024, 6, 10, 0, 0, 0⟩),
      ("f1", ⟨2024, 6, 14, 0, 0, 0⟩)]
    [("d12", ⟨2024, 6, 3, 0, 0, 0⟩), ("d7", ⟨2024, 6, 8, 0, 0, 0⟩),
      ("d2", ⟨2024, 6, 13, 0, 0, 0⟩)]
    ⟨2024, 6, 12, 0, 0, 0⟩).2 _ (by decide)

/-- C4: the strictly most recent full entry of the pooled catalog (with the
catalog free of duplicate entries) is never contained in the local deletion
plan, regardless of its age, the cutoff or the mode. -/
theorem newest_full_never_deleted (fulls diffs : List Entry) (cutoff : DateTime)
    (inc : Bool) (e : Entry) (hmem : e ∈ fulls) (hnodup : fulls.Nodup)
    (hmax : ∀ x ∈ fulls, x ≠ e → x.2.key < e.2.key) :
    e ∉ cleanPlanCore fulls diffs cutoff inc := by
  intro hplan
  cases hlast : (agedFulls fulls cutoff).getLast? with
  | none =>
    rw [cleanPlanCore_none hlast] at hplan
    simp at hplan
  | some pivot =>
    rw [cleanPlanCore_some hlast] at hplan
    have hpivA : pivot ∈ agedFulls fulls cutoff := mem_of_getLast?_eq hlast
    have hpivC : pivot ∈ (sortTS fulls).dropLast := List.mem_of_mem_filter hpivA
    have hSne : sortTS fulls ≠ [] := by
      intro h0
      rw [sortTS_eq_nil_iff] at h0
      subst h0
      simp at hmem
    have hmlast : (sortTS fulls).getLast? = some ((sortTS fulls).getLast hSne) :=
      List.getLast?_eq_getLast_of_ne_nil hSne
    have hmf : (sortTS fulls).getLast hSne ∈ fulls :=
      mem_sortTS.mp (mem_of_getLast?_eq hmlast)
    have hme : (sortTS fulls).getLast hSne = e := by
      by_contra hne
      have h1 : ((sortTS fulls).getLast hSne).2.key < e.2.key := hmax _ hmf hne
      have h2 : e.2.key ≤ ((sortTS fulls).getLast hSne).2.key :=
        sorted_getLast?_max (sortTS_sorted fulls) hmlast e (mem_sortTS.mpr hmem)
      omega
    have hSnodup : (sortTS fulls).Nodup := ((sortTS_perm fulls).nodup_iff).mpr hnodup
    have hsplit : (sortTS fulls).dropLast ++ [(sortTS fulls).getLast hSne] = sortTS fulls :=
      List.dropLast_append_getLast hSne
    rw [← hsplit] at hSnodup
    rcases List.nodup_append.mp hSnodup with ⟨-, -, hdisj2⟩
    have heC : e ∉ (sortTS fulls).dropLast := by
      intro heC
      exact hdisj2 heC (by simp [hme])
    have hpivf : pivot ∈ fulls := mem_sortTS.mp (List.mem_of_mem_dropLast hpivC)
    have hpivne : pivot ≠ e := fun h => heC (h ▸ hpivC)
    have hpivlt : pivot.2.key < e.2.key := hmax pivot hpivf hpivne
    cases inc with
    | true =>
      simp only [if_true] at hplan
      have := (List.mem_filter.mp hplan).2
      simp at this
      omega
    | false =>
      simp only [if_false, Bool.false_eq_true] at hplan
      rcases List.mem_append.mp hplan with hc | ha
      · have := (List.mem_filter.mp hc).2
        simp at this
        omega
      · exact heC (List.mem_of_mem_filter ha)

/-- Witness for C4: with a one-day-old full and a ten-day-old full at a
three-day cutoff, the newest full is not planned for deletion. -/
theorem newest_full_never_deleted_witness :
    ("f1", (⟨2024, 6, 14, 0, 0, 0⟩ : DateTime)) ∉
      cleanPlanCore
        [("f10", ⟨2024, 6, 5, 0, 0, 0⟩), ("f1", ⟨2024, 6, 14, 0, 0, 0⟩)]
        [("d12", ⟨2024, 6, 3, 0, 0, 0⟩)]
        ⟨2024, 6, 12, 0, 0, 0⟩ false :=
  newest_full_never_deleted
    [("f10", ⟨2024, 6, 5, 0, 0, 0⟩), ("f1", ⟨2024, 6, 14, 0, 0, 0⟩)]
    [("d12", ⟨2024, 6, 3, 0, 0, 0⟩)]
    ⟨2024, 6, 12, 0, 0, 0⟩ false
    ("f1", ⟨2024, 6, 14, 0, 0, 0⟩) (by decide) (by decide) (by decide)

/-- C9: retention planning is idempotent.  If the entries of the computed
plan are removed from the catalog, re-running the planner on the reduced
catalog at the same instant with the same threshold and mode yields an
empty plan (for catalogs in which no full entry is also listed as a diff
entry). -/
theorem retention_idempotent (fulls diffs : List Entry) (cutoff : DateTime)
    (inc : Bool) (hdisj : ∀ e ∈ fulls, e ∉ diffs) :
    cleanPlanCore
      (fulls.filter (fun e => !decide (e ∈ cleanPlanCore fulls diffs cutoff inc)))
      (diffs.filter (fun e => !decide (e ∈ cleanPlanCore fulls diffs cutoff inc)))
      cutoff inc = [] := by
  cases hlast : (agedFulls fulls cutoff).getLast? with
  | none =>
    have hpe : cleanPlanCore fulls diffs cutoff inc = [] := cleanPlanCore_none hlast
    rw [hpe]
    have hf : fulls.filter (fun e => !decide (e ∈ ([] : List Entry))) = fulls :=
      List.filter_eq_self.mpr (by intro a _; simp)
    have hd : diffs.filter (fun e => !decide (e ∈ ([] : List Entry))) = diffs :=
      List.filter_eq_self.mpr (by intro a _; simp)
    rw [hf, hd, hpe]
  | some pivot =>
    cases inc with
    | true =>
      have hpe : cleanPlanCore fulls diffs cutoff true =
          (sortTS diffs).filter (fun e => decide (e.2.key < pivot.2.key)) := by
        rw [cleanPlanCore_some hlast]
        simp
      have hf : fulls.filter
          (fun e => !decide (e ∈ cleanPlanCore fulls diffs cutoff true)) = fulls := by
        apply List.filter_eq_self.mpr
        intro a ha
        have hnp : a ∉ cleanPlanCore fulls diffs cutoff true := by
          intro hap
          rw [hpe] at hap
          exact hdisj a ha (mem_sortTS.mp (List.mem_of_mem_filter hap))
        simp [hnp]
      rw [hf]
      rw [cleanPlanCore_some hlast]
      simp only [if_true]
      rw [sortTS_filter]
      apply List.filter_eq_nil_iff.mpr
      intro a ha hlt
      rcases List.mem_filter.mp ha with ⟨haS, haq⟩
      have hap : a ∈ cleanPlanCore fulls diffs cutoff true := by
        rw [hpe]
        exact List.mem_filter.mpr ⟨haS, by simpa using hlt⟩
      simp [hap] at haq
    | false =>
      have hpe : cleanPlanCore fulls diffs cutoff false =
          (sortTS diffs).filter (fun e => decide (e.2.key < pivot.2.key)) ++
            agedFulls fulls cutoff := by
        rw [cleanPlanCore_some hlast]
        simp
      have hAne : agedFulls fulls cutoff ≠ [] := by
        intro h0; rw [h0] at hlast; simp at hlast
      have hSne : sortTS fulls ≠ [] := by
        intro h0
        apply hAne
        unfold agedFulls
        rw [h0]
        rfl
      have hmlast : (sortTS fulls).getLast? = some ((sortTS fulls).getLast hSne) :=
        List.getLast?_eq_getLast_of_ne_nil hSne
      have hsplit : (sortTS fulls).dropLast ++ [(sortTS fulls).getLast hSne] =
          sortTS fulls := List.dropLast_append_getLast hSne
      -- every aged candidate is in the plan
      have hCplan : ∀ x ∈ (sortTS fulls).dropLast, x.2.key < cutoff.key →
          x ∈ cleanPlanCore fulls diffs cutoff false := by
        intro x hx hlt
        rw [hpe]
        exact List.mem_append_right _
          (List.mem_filter.mpr ⟨hx, by simpa using hlt⟩)
      have hagedF : agedFulls
          (fulls.filter (fun e => !decide (e ∈ cleanPlanCore fulls diffs cutoff false)))
          cutoff = [] := by
        unfold agedFulls
        rw [sortTS_filter]
        by_cases hm : ((sortTS fulls).getLast hSne).2.key < cutoff.key
        · -- the whole sorted full list is aged, so the filter removes all
          -- candidates and at most the protected entry survives
          have hCq : ((sortTS fulls).dropLast).filter
              (fun e => !decide (e ∈ cleanPlanCore fulls diffs cutoff false)) = [] := by
            apply List.filter_eq_nil_iff.mpr
            intro x hx
            have hxS : x ∈ sortTS fulls := List.mem_of_mem_dropLast hx
            have hxle : x.2.key ≤ ((sortTS fulls).getLast hSne).2.key :=
              sorted_getLast?_max (sortTS_sorted fulls) hmlast x hxS
            have hxp : x ∈ cleanPlanCore fulls diffs cutoff false :=
              hCplan x hx (by omega)
            simp [hxp]
          have hSq : (sortTS fulls).filter
              (fun e => !decide (e ∈ cleanPlanCore fulls diffs cutoff false)) =
              [(sortTS fulls).getLast hSne].filter
                (fun e => !decide (e ∈ cleanPlanCore fulls diffs cutoff false)) := by
            conv_lhs => rw [← hsplit]
            rw [List.filter_append, hCq]
            rfl
          rw [hSq]
          by_cases hmq : ((sortTS fulls).getLast hSne) ∈
              cleanPlanCore fulls diffs cutoff false <;>
            simp [List.filter_cons, hmq]
        · -- the most recent full is not aged, and no aged candidate survives
          -- the filter, so nothing in the filtered sorted list is aged
          apply List.filter_eq_nil_iff.mpr
          intro x hx hlt
          have hxSq : x ∈ (sortTS fulls).filter
              (fun e => !decide (e ∈ cleanPlanCore fulls diffs cutoff false)) :=
            List.mem_of_mem_dropLast hx
          rcases List.mem_filter.mp hxSq with ⟨hxS, hxq⟩
          rw [← hsplit] at hxS
          rcases List.mem_append.mp hxS with hxC | hxm
          · have hxp : x ∈ cleanPlanCore fulls diffs cutoff false :=
              hCplan x hxC (by simpa using hlt)
            simp [hxp] at hxq
          · have hxe : x = (sortTS fulls).getLast hSne := by simpa using hxm
            rw [hxe] at hlt
            simp at hlt
            omega
      rw [cleanPlanCore_none]
      rw [hagedF]
      rfl

/-- Witness for C9: removing the plan of the §8 scenario from the catalog
and re-planning yields the empty plan. -/
theorem retention_idempotent_witness :
    cleanPlanCore
      ([("f10", (⟨2024, 6, 5, 0, 0, 0⟩ : DateTime)),
        ("f5", (⟨2024, 6, 10, 0, 0, 0⟩ : DateTime)),
        ("f1", (⟨2024, 6, 14, 0, 0, 0⟩ : DateTime))].filter
          (fun e => !decide (e ∈ cleanPlanCore
            [("f10", ⟨2024, 6, 5, 0, 0, 0⟩), ("f5", ⟨2024, 6, 10, 0, 0, 0⟩),
              ("f1", ⟨2024, 6, 14, 0, 0, 0⟩)]
            [("d12", ⟨2024, 6, 3, 0, 0, 0⟩), ("d7", ⟨2024, 6, 8, 0, 0, 0⟩),
              ("d2", ⟨2024, 6, 13, 0, 0, 0⟩)]
            ⟨2024, 6, 12, 0, 0, 0⟩ false)))
      ([("d12", (⟨2024, 6, 3, 0, 0, 0⟩ : DateTime)),
        ("d7", (⟨2024, 6, 8, 0, 0, 0⟩ : DateTime)),
        ("d2", (⟨2024, 6, 13, 0, 0, 0⟩ : DateTime))].filter
          (fun e => !decide (e ∈ cleanPlanCore
            [("f10", ⟨2024, 6, 5, 0, 0, 0⟩), ("f5", ⟨2024, 6, 10, 0, 0, 0⟩),
              ("f1", ⟨2024, 6, 14, 0, 0, 0⟩)]
            [("d12", ⟨2024, 6, 3, 0, 0, 0⟩), ("d7", ⟨2024, 6, 8, 0, 0, 0⟩),
              ("d2", ⟨2024, 6, 13, 0, 0, 0⟩)]
            ⟨2024, 6, 12, 0, 0, 0⟩ false)))
      ⟨2024, 6, 12, 0, 0, 0⟩ false = [] :=
  retention_idempotent
    [("f10", ⟨2024, 6, 5, 0, 0, 0⟩), ("f5", ⟨2024, 6, 10, 0, 0, 0⟩),
      ("f1", ⟨2024, 6, 14, 0, 0, 0⟩)]
    [("d12", ⟨2024, 6, 3, 0, 0, 0⟩), ("d7", ⟨2024, 6, 8, 0, 0, 0⟩),
      ("d2", ⟨2024, 6, 13, 0, 0, 0⟩)]
    ⟨2024, 6, 12, 0, 0, 0⟩ false (by decide)

/-! ### Base selection, decoder totality, cleanall, remote planning -/

/-- Ascending-by-timestamp check used to state sortedness of a diff
list. -/
def sortedByTs : List Entry → Bool
  | [] => true
  | [_] => true
  | a :: b :: t => decide (a.2.key ≤ b.2.key) && sortedByTs (b :: t)

/-- C1 counterexample: when the diff folders are listed newest first, the
base set returned by `selectBase` keeps them in listing order, so the diff
list handed to the sync engine is not sorted ascending by timestamp. -/
theorem selectBase_diffs_not_sorted :
    selectBase [("f", ⟨2024, 1, 1, 0, 0, 0⟩)]
      [("b", ⟨2024, 1, 3, 0, 0, 0⟩), ("a", ⟨2024, 1, 2, 0, 0, 0⟩)] =
      some (("f", ⟨2024, 1, 1, 0, 0, 0⟩),
        [("b", ⟨2024, 1, 3, 0, 0, 0⟩), ("a", ⟨2024, 1, 2, 0, 0, 0⟩)]) ∧
    sortedByTs [("b", ⟨2024, 1, 3, 0, 0, 0⟩), ("a", ⟨2024, 1, 2, 0, 0, 0⟩)] = false := by
  decide

/-- C1 amended: on an empty full catalog `selectBase` returns nothing;
otherwise it returns a maximal-timestamp full together with exactly the
diffs strictly newer than it, kept in catalog listing order (not
re-sorted), and the comparison bases are the full first followed by those
diffs. -/
theorem selectBase_spec (fl dl : List Entry) :
    (fl = [] → selectBase fl dl = none) ∧
    (fl ≠ [] → ∃ lf, (sortTS fl).getLast? = some lf ∧
      selectBase fl dl =
        some (lf, dl.filter (fun x => decide (lf.2.key < x.2.key))) ∧
      lf ∈ fl ∧ (∀ x ∈ fl, x.2.key ≤ lf.2.key) ∧
      compareBases fl dl =
        lf.1 :: (dl.filter (fun x => decide (lf.2.key < x.2.key))).map
          (fun e => e.1)) := by
  constructor
  · intro h
    subst h
    rfl
  · intro hne
    have hSne : sortTS fl ≠ [] := fun h0 => hne (sortTS_eq_nil_iff.mp h0)
    have hlast : (sortTS fl).getLast? = some ((sortTS fl).getLast hSne) :=
      List.getLast?_eq_getLast_of_ne_nil hSne
    have hsel : selectBase fl dl =
        some ((sortTS fl).getLast hSne,
          dl.filter (fun x => decide (((sortTS fl).getLast hSne).2.key < x.2.key))) := by
      unfold selectBase
      rw [hlast]
    refine ⟨(sortTS fl).getLast hSne, hlast, hsel, ?_, ?_, ?_⟩
    · exact mem_sortTS.mp (mem_of_getLast?_eq hlast)
    · exact fun x hx =>
        sorted_getLast?_max (sortTS_sorted fl) hlast x (mem_sortTS.mpr hx)
    · unfold compareBases
      rw [hsel]

/-- Witness for the amended C1: on a one-full catalog the base set is
returned (not `none`). -/
theorem selectBase_spec_witness :
    selectBase [("f", (⟨2024, 1, 1, 0, 0, 0⟩ : DateTime))]
      [("b", ⟨2024, 1, 3, 0, 0, 0⟩), ("a", ⟨2024, 1, 2, 0, 0, 0⟩)] ≠ none := by
  obtain ⟨lf, -, hs, -, -, -⟩ :=
    (selectBase_spec [("f", ⟨2024, 1, 1, 0, 0, 0⟩)]
      [("b", ⟨2024, 1, 3, 0, 0, 0⟩), ("a", ⟨2024, 1, 2, 0, 0, 0⟩)]).2 (by decide)
  rw [hs]
  simp

/-- C2: on a name whose leading digits match the pattern but encode month
13, the decoder takes the `ValueError` path of the `datetime` constructor
instead of returning nothing — `getDateFromName` is not exception-free on
malformed calendar dates. -/
theorem getDateFromName_month13_raises :
    getDateFromName "20241301_000000" = DecodeResult.valueError := by
  decide

/-- C8: with cleanall's defaulted one-day threshold, a full backup made 12
hours before the current run survives local cleaning (the plan is empty),
so cleanall does not delete "everything but the newest" catalog entry. -/
theorem cleanall_leaves_recent_entry :
    cleanPlanCore
      [("20240615_120000", ⟨2024, 6, 15, 12, 0, 0⟩),
        ("20240615_000000", ⟨2024, 6, 15, 0, 0, 0⟩)]
      [] ⟨2024, 6, 14, 12, 0, 0⟩ false = [] := by
  decide

/-- C7: given a successfully classified remote listing, the remote plan
deletes exactly the diff archives older than the cutoff in incremental
mode and exactly the full archives older than the cutoff otherwise, with
no newest-entry protection. -/
theorem cleanRemote_rule (listing : List String) (cutoff : DateTime)
    (inc : Bool) (fs ds : List Entry)
    (h : classifyRemote listing = .ok (fs, ds)) :
    cleanRemotePlan listing cutoff inc =
      .ok ((if inc then ds else fs).filter (fun e => decide (e.2.key < cutoff.key))) ∧
    ∀ plan, cleanRemotePlan listing cutoff inc = .ok plan →
      ∀ e, e ∈ plan ↔ (e ∈ (if inc then ds else fs) ∧ e.2.key < cutoff.key) := by
  have heq : cleanRemotePlan listing cutoff inc =
      .ok ((if inc then ds else fs).filter (fun e => decide (e.2.key < cutoff.key))) := by
    unfold cleanRemotePlan
    rw [h]
    cases inc <;> simp
  refine ⟨heq, ?_⟩
  intro plan hp e
  rw [heq] at hp
  have hpl : plan = (if inc then ds else fs).filter (fun e => decide (e.2.key < cutoff.key)) := by
    injection hp with hp'
    exact hp'.symm
  subst hpl
  simp [List.mem_filter]

/-- Witness for C7: a lone diff archive 40 days past a 30-day cutoff is
deleted even though it is the only diff archive present. -/
theorem cleanRemote_rule_witness :
    cleanRemotePlan ["20240101_000000_diff.7z"] ⟨2024, 2, 10, 0, 0, 0⟩ true =
      .ok [("20240101_000000_diff.7z", ⟨2024, 1, 1, 0, 0, 0⟩)] := by
  have h := (cleanRemote_rule ["20240101_000000_diff.7z"] ⟨2024, 2, 10, 0, 0, 0⟩
    true [] [("20240101_000000_diff.7z", ⟨2024, 1, 1, 0, 0, 0⟩)] (by rfl)).1
  rw [h]
  rfl

/-! ### Digit and formatting lemmas -/

theorem strMk_data (s : String) : String.mk s.data = s := by
  cases s
  rfl

theorem digitChar_isDigit {k : Nat} (h : k < 10) : isDigit (Nat.digitChar k) = true := by
  interval_cases k <;> decide

theorem digitVal_digitChar {k : Nat} (h : k < 10) : digitVal (Nat.digitChar k) = k := by
  interval_cases k <;> decide

theorem digit_beq_false {c d : Char} (hc : isDigit c = true)
    (hd : isDigit d = false) : (c == d) = false := by
  apply beq_eq_false_iff_ne.mpr
  intro h
  subst h
  rw [hc] at hd
  exact Bool.noConfusion hd

theorem digit_bne_newline {c : Char} (hc : isDigit c = true) : (c != '\n') = true := by
  have h := digit_beq_false hc (show isDigit '\n' = false by decide)
  simp [bne, h]

theorem daysInMonth_le (y m : Nat) : daysInMonth y m ≤ 31 := by
  unfold daysInMonth
  split_ifs <;> omega

/-- Decoding a freshly formatted timestamp with an appended suffix returns
the timestamp and the suffix (for a datetime accepted by the `datetime`
constructor and a newline-free suffix). -/
theorem decode_fmt (dt : DateTime) (hv : pyDatetimeOK dt = true) (s : String)
    (hs : s.data.all (fun c => c != '\n') = true) :
    getDateFromName (fmtDateTime dt ++ s) = .ok dt s := by
  obtain ⟨y, mo, d, hh, mi, se⟩ := dt
  have hb : 1 ≤ y ∧ y ≤ 9999 ∧ 1 ≤ mo ∧ mo ≤ 12 ∧ 1 ≤ d ∧
      d ≤ daysInMonth y mo ∧ hh ≤ 23 ∧ mi ≤ 59 ∧ se ≤ 59 := by
    simpa [pyDatetimeOK, and_assoc] using hv
  obtain ⟨hy1, hy2, hmo1, hmo2, hd1, hd2, hhh, hmi, hse⟩ := hb
  have hdle : daysInMonth y mo ≤ 31 := daysInMonth_le y mo
  have k1 : y / 1000 < 10 := by omega
  have k2 : y / 100 % 10 < 10 := by omega
  have k3 : y / 10 % 10 < 10 := by omega
  have k4 : y % 10 < 10 := by omega
  have k5 : mo / 10 < 10 := by omega
  have k6 : mo % 10 < 10 := by omega
  have k7 : d / 10 < 10 := by omega
  have k8 : d % 10 < 10 := by omega
  have k9 : hh / 10 < 10 := by omega
  have k10 : hh % 10 < 10 := by omega
  have k11 : mi / 10 < 10 := by omega
  have k12 : mi % 10 < 10 := by omega
  have k13 : se / 10 < 10 := by omega
  have k14 : se % 10 < 10 := by omega
  have hdata : ((fmtDateTime ⟨y, mo, d, hh, mi, se⟩) ++ s).data =
      Nat.digitChar (y / 1000) :: Nat.digitChar (y / 100 % 10) ::
      Nat.digitChar (y / 10 % 10) :: Nat.digitChar (y % 10) ::
      Nat.digitChar (mo / 10) :: Nat.digitChar (mo % 10) ::
      Nat.digitChar (d / 10) :: Nat.digitChar (d % 10) :: '_' ::
      Nat.digitChar (hh / 10) :: Nat.digitChar (hh % 10) ::
      Nat.digitChar (mi / 10) :: Nat.digitChar (mi % 10) ::
      Nat.digitChar (se / 10) :: Nat.digitChar (se % 10) :: s.data := by
    simp [fmtDateTime, fmt4, fmt2, String.data_append]
  have pY : parseDigits [Nat.digitChar (y / 1000), Nat.digitChar (y / 100 % 10),
      Nat.digitChar (y / 10 % 10), Nat.digitChar (y % 10)] = y := by
    simp [parseDigits, digitVal_digitChar k1, digitVal_digitChar k2,
      digitVal_digitChar k3, digitVal_digitChar k4]
    omega
  have pMo : parseDigits [Nat.digitChar (mo / 10), Nat.digitChar (mo % 10)] = mo := by
    simp [parseDigits, digitVal_digitChar k5, digitVal_digitChar k6]
    omega
  have pD : parseDigits [Nat.digitChar (d / 10), Nat.digitChar (d % 10)] = d := by
    simp [parseDigits, digitVal_digitChar k7, digitVal_digitChar k8]
    omega
  have pH : parseDigits [Nat.digitChar (hh / 10), Nat.digitChar (hh % 10)] = hh := by
    simp [parseDigits, digitVal_digitChar k9, digitVal_digitChar k10]
    omega
  have pMi : parseDigits [Nat.digitChar (mi / 10), Nat.digitChar (mi % 10)] = mi := by
    simp [parseDigits, digitVal_digitChar k11, digitVal_digitChar k12]
    omega
  have pSe : parseDigits [Nat.digitChar (se / 10), Nat.digitChar (se % 10)] = se := by
    simp [parseDigits, digitVal_digitChar k13, digitVal_digitChar k14]
    omega
  unfold getDateFromName
  rw [hdata]
  simp only [splitName, digitChar_isDigit k1, digitChar_isDigit k2,
    digitChar_isDigit k3, digitChar_isDigit k4, digitChar_isDigit k5,
    digitChar_isDigit k6, digitChar_isDigit k7, digitChar_isDigit k8,
    digitChar_isDigit k9, digitChar_isDigit k10, digitChar_isDigit k11,
    digitChar_isDigit k12, digitChar_isDigit k13, digitChar_isDigit k14,
    Bool.and_self, Bool.true_and, beq_self_eq_true, if_true]
  simp only [tailCapture, hs, if_true]
  simp only [List.take, List.drop]
  rw [pY, pMo, pD, pH, pMi, pSe]
  rw [if_pos hv]

theorem fmt4_digits {n : Nat} (hn : n < 10000) : ∀ c ∈ fmt4 n, isDigit c = true := by
  intro c hc
  simp only [fmt4, List.mem_cons, List.mem_singleton, List.not_mem_nil, or_false] at hc
  rcases hc with rfl | rfl | rfl | rfl
  · exact digitChar_isDigit (by omega)
  · exact digitChar_isDigit (by omega)
  · exact digitChar_isDigit (by omega)
  · exact digitChar_isDigit (by omega)

theorem fmt2_digits {n : Nat} (hn : n < 100) : ∀ c ∈ fmt2 n, isDigit c = true := by
  intro c hc
  simp only [fmt2, List.mem_cons, List.mem_singleton, List.not_mem_nil, or_false] at hc
  rcases hc with rfl | rfl
  · exact digitChar_isDigit (by omega)
  · exact digitChar_isDigit (by omega)

theorem searchDiffArc_cons (c : Char) (l : List Char) :
    searchDiffArc (c :: l) = (matchDiffArcAt (c :: l) || searchDiffArc l) := rfl

theorem matchDiffArcAt_not_underscore {c : Char} (hc : (c == '_') = false)
    (l : List Char) : matchDiffArcAt (c :: l) = false := by
  simp [matchDiffArcAt, hc]

theorem searchDiffArc_digits_append {l : List Char}
    (hl : ∀ c ∈ l, isDigit c = true) (r : List Char) :
    searchDiffArc (l ++ r) = searchDiffArc r := by
  induction l with
  | nil => rfl
  | cons c t ih =>
    have hc := hl c (List.mem_cons_self c t)
    have hne : (c == '_') = false := digit_beq_false hc (by decide)
    rw [List.cons_append, searchDiffArc_cons, matchDiffArcAt_not_underscore hne,
      Bool.false_or, ih (fun x hx => hl x (List.mem_cons_of_mem c hx))]

theorem pyOK_bounds {dt : DateTime} (hv : pyDatetimeOK dt = true) :
    dt.year < 10000 ∧ dt.month < 100 ∧ dt.day < 100 ∧ dt.hour < 100 ∧
      dt.minute < 100 ∧ dt.second < 100 := by
  have hd := daysInMonth_le dt.year dt.month
  simp only [pyDatetimeOK, Bool.and_eq_true, decide_eq_true_eq] at hv
  omega

/-- The remote diff regex never matches inside a freshly formatted
timestamp prefix, so searching the whole name is searching the suffix. -/
theorem searchDiffArc_fmt (dt : DateTime) (hv : pyDatetimeOK dt = true)
    (s : String) :
    searchDiffArc ((fmtDateTime dt ++ s).data) = searchDiffArc s.data := by
  obtain ⟨hy, hmo, hd, hh, hmi, hse⟩ := pyOK_bounds hv
  have hdata : ((fmtDateTime dt) ++ s).data =
      fmt4 dt.year ++ (fmt2 dt.month ++ (fmt2 dt.day ++ ('_' ::
        (fmt2 dt.hour ++ (fmt2 dt.minute ++ (fmt2 dt.second ++ s.data)))))) := by
    simp [fmtDateTime, String.data_append]
  rw [hdata]
  rw [searchDiffArc_digits_append (fmt4_digits hy)]
  rw [searchDiffArc_digits_append (fmt2_digits hmo)]
  rw [searchDiffArc_digits_append (fmt2_digits hd)]
  rw [searchDiffArc_cons]
  have hne : (Nat.digitChar (dt.hour / 10) == 'd') = false :=
    digit_beq_false (digitChar_isDigit (by omega)) (by decide)
  have hmau : matchAfterUnderscore
      (fmt2 dt.hour ++ (fmt2 dt.minute ++ (fmt2 dt.second ++ s.data))) = false := by
    simp [fmt2, matchAfterUnderscore, hne]
  have hmat : matchDiffArcAt ('_' ::
      (fmt2 dt.hour ++ (fmt2 dt.minute ++ (fmt2 dt.second ++ s.data)))) = false := by
    simp [matchDiffArcAt, hmau]
  rw [hmat, Bool.false_or]
  rw [searchDiffArc_digits_append (fmt2_digits hh)]
  rw [searchDiffArc_digits_append (fmt2_digits hmi)]
  rw [searchDiffArc_digits_append (fmt2_digits hse)]

/-- C6 counterexample: the archive name `20240101_000000backup.7z` is a
full archive for the local classifier (suffix ends in `.7z`) but
unclassified for the remote classifier (suffix is not exactly `.7z`), so
the two classifications do not agree on every name. -/
theorem remote_local_classifier_differ :
    archiveKindLocal "20240101_000000backup.7z" = RKind.full ∧
    archiveKindRemote "20240101_000000backup.7z" = RKind.unclassified := by
  constructor
  · rfl
  · rfl

/-- C6 amended: the remote classifier (regex `_diff.(7z|zip)` on the whole
name, then suffix exactly `.7z`/`.zip`) agrees with the local archive
classifier on every name the program itself generates — a formatted valid
timestamp followed by one of the standard archive suffixes. -/
theorem remote_local_agree_std (dt : DateTime) (hv : pyDatetimeOK dt = true)
    (s : String)
    (hs : s = ".7z" ∨ s = ".zip" ∨ s = "_diff.7z" ∨ s = "_diff.zip") :
    archiveKindRemote (fmtDateTime dt ++ s) = archiveKindLocal (fmtDateTime dt ++ s) := by
  have hnl : s.data.all (fun c => c != '\n') = true := by
    rcases hs with rfl | rfl | rfl | rfl <;> decide
  have hdec := decode_fmt dt hv s hnl
  have hsearch := searchDiffArc_fmt dt hv s
  unfold archiveKindRemote archiveKindLocal
  rw [hdec, hsearch]
  rcases hs with rfl | rfl | rfl | rfl <;> rfl

/-- Witness for the amended C6: the two classifiers agree on a generated
diff archive name. -/
theorem remote_local_agree_std_witness :
    archiveKindRemote (fmtDateTime ⟨2024, 1, 1, 12, 0, 0⟩ ++ "_diff.7z") =
      archiveKindLocal (fmtDateTime ⟨2024, 1, 1, 12, 0, 0⟩ ++ "_diff.7z") :=
  remote_local_agree_std ⟨2024, 1, 1, 12, 0, 0⟩ (by decide) "_diff.7z" (by decide)

/-! ### Collision-name and catalog-soundness lemmas -/

theorem digit_ne {c d : Char} (hc : isDigit c = true) (hd : isDigit d = false) :
    c ≠ d := by
  intro h
  subst h
  rw [hc] at hd
  exact Bool.noConfusion hd

theorem natStr_digits {i : Nat} (hi : i ≤ 99) :
    ∀ c ∈ natStr i, isDigit c = true := by
  intro c hc
  by_cases h : i < 10
  · rw [natStr, if_pos h] at hc
    simp only [List.mem_singleton] at hc
    subst hc
    exact digitChar_isDigit h
  · rw [natStr, if_neg h] at hc
    simp only [List.mem_cons, List.mem_singleton, List.not_mem_nil, or_false] at hc
    rcases hc with rfl | rfl
    · exact digitChar_isDigit (by omega)
    · exact digitChar_isDigit (by omega)

theorem natStr_head {i : Nat} (hi : i ≤ 99) :
    ∃ c t, natStr i = c :: t ∧ isDigit c = true := by
  by_cases h : i < 10
  · exact ⟨_, _, by rw [natStr, if_pos h], digitChar_isDigit h⟩
  · exact ⟨_, _, by rw [natStr, if_neg h], digitChar_isDigit (by omega)⟩

theorem natStr_getLast? {i : Nat} (hi : i ≤ 99) :
    ∃ c, (natStr i).getLast? = some c ∧ isDigit c = true := by
  by_cases h : i < 10
  · exact ⟨_, by rw [natStr, if_pos h]; rfl, digitChar_isDigit h⟩
  · exact ⟨_, by rw [natStr, if_neg h]; rfl, digitChar_isDigit (by omega)⟩

theorem lastN_getLast? {n : Nat} {l t : List Char} (h : lastN n l = t)
    (ht : t ≠ []) : l.getLast? = t.getLast? := by
  rcases List.drop_suffix (l.length - n) l with ⟨pre, hpre⟩
  have hpre' : pre ++ t = l := by rw [← h]; exact hpre
  rw [← hpre']
  rw [List.getLast?_append_of_ne_nil pre ht]

theorem zipExt_false_of_getLast {s : String} {c : Char}
    (hl : s.data.getLast? = some c) (hcz : c ≠ 'z') (hcp : c ≠ 'p') :
    zipExt s = false := by
  have h3 : (lastN 3 s.data == ['.', '7', 'z']) = false := by
    apply beq_eq_false_iff_ne.mpr
    intro he
    have := lastN_getLast? he (by decide)
    rw [hl] at this
    simp at this
    exact hcz this
  have h4 : (lastN 4 s.data == ['.', 'z', 'i', 'p']) = false := by
    apply beq_eq_false_iff_ne.mpr
    intro he
    have := lastN_getLast? he (by decide)
    rw [hl] at this
    simp at this
    exact hcp this
  rw [zipExt, h3, h4]
  rfl

theorem joinPath_right_injective {root a b : String}
    (h : joinPath root a = joinPath root b) : a = b := by
  unfold joinPath at h
  have hd : (root ++ "/").data ++ a.data = (root ++ "/").data ++ b.data := by
    have := congrArg String.data h
    simpa [String.data_append] using this
  have hab := List.append_cancel_left hd
  cases a
  cases b
  exact congrArg String.mk hab

theorem cleanPlanCore_subset {fulls diffs : List Entry} {cutoff : DateTime}
    {inc : Bool} {e : Entry} (he : e ∈ cleanPlanCore fulls diffs cutoff inc) :
    e ∈ fulls ∨ e ∈ diffs := by
  cases hlast : (agedFulls fulls cutoff).getLast? with
  | none =>
    rw [cleanPlanCore_none hlast] at he
    simp at he
  | some pivot =>
    rw [cleanPlanCore_some hlast] at he
    cases inc with
    | true =>
      simp only [if_true] at he
      exact Or.inr (mem_sortTS.mp (List.mem_of_mem_filter he))
    | false =>
      simp only [Bool.false_eq_true, if_false] at he
      rcases List.mem_append.mp he with hc | ha
      · exact Or.inr (mem_sortTS.mp (List.mem_of_mem_filter hc))
      · exact Or.inl (agedFulls_subset ha)

/-- Any entry of the full or diff folder catalog originates from a listed
name whose decoded suffix is empty or exactly `_diff`. -/
theorem findOldFolders_mem {root : String} {listing : List String}
    {fs ds : List Entry} (h : findOldFolders root listing = .ok (fs, ds))
    {p : String} {dtv : DateTime} (hmem : (p, dtv) ∈ fs ∨ (p, dtv) ∈ ds) :
    ∃ n, n ∈ listing ∧ p = joinPath root n ∧
      ∃ suf, getDateFromName n = .ok dtv suf ∧ (suf = "" ∨ suf = "_diff") := by
  induction listing generalizing fs ds with
  | nil =>
    simp only [findOldFolders, Except.ok.injEq, Prod.mk.injEq] at h
    obtain ⟨rfl, rfl⟩ := h
    simp at hmem
  | cons n ns ih =>
    rw [findOldFolders] at h
    split at h
    · exact absurd h (by simp)
    · obtain ⟨n', hn', rest⟩ := ih h hmem
      exact ⟨n', List.mem_cons_of_mem _ hn', rest⟩
    · rename_i dtn suf hdec
      split at h
      · exact absurd h (by simp)
      · rename_i fs' ds' heq
        split at h
        · rename_i h0
          simp only [Except.ok.injEq, Prod.mk.injEq] at h
          obtain ⟨rfl, rfl⟩ := h
          have hsuf : suf = "" := by
            cases suf with
            | mk sd =>
              cases sd with
              | nil => rfl
              | cons c cs => simp [String.length] at h0
          rcases hmem with hmem | hmem
          · rcases List.mem_cons.mp hmem with heq2 | hmem2
            · injection heq2 with hp hdv
              subst hdv
              exact ⟨n, List.mem_cons_self n ns, hp, suf, hdec, Or.inl hsuf⟩
            · obtain ⟨n', hn', rest⟩ := ih heq (Or.inl hmem2)
              exact ⟨n', List.mem_cons_of_mem _ hn', rest⟩
          · obtain ⟨n', hn', rest⟩ := ih heq (Or.inr hmem)
            exact ⟨n', List.mem_cons_of_mem _ hn', rest⟩
        · split at h
          · rename_i h0 h1
            simp only [Except.ok.injEq, Prod.mk.injEq] at h
            obtain ⟨rfl, rfl⟩ := h
            rcases hmem with hmem | hmem
            · obtain ⟨n', hn', rest⟩ := ih heq (Or.inl hmem)
              exact ⟨n', List.mem_cons_of_mem _ hn', rest⟩
            · rcases List.mem_cons.mp hmem with heq2 | hmem2
              · injection heq2 with hp hdv
                subst hdv
                exact ⟨n, List.mem_cons_self n ns, hp, suf, hdec, Or.inr h1⟩
              · obtain ⟨n', hn', rest⟩ := ih heq (Or.inr hmem2)
                exact ⟨n', List.mem_cons_of_mem _ hn', rest⟩
          · simp only [Except.ok.injEq, Prod.mk.injEq] at h
            obtain ⟨rfl, rfl⟩ := h
            obtain ⟨n', hn', rest⟩ := ih heq hmem
            exact ⟨n', List.mem_cons_of_mem _ hn', rest⟩

/-- Any entry of the zip-archive catalog originates from a listed name
whose decoded suffix passes the archive-extension test. -/
theorem findOldZipArchives_mem {root : String} {listing : List String}
    {fs ds : List Entry} (h : findOldZipArchives root listing = .ok (fs, ds))
    {p : String} {dtv : DateTime} (hmem : (p, dtv) ∈ fs ∨ (p, dtv) ∈ ds) :
    ∃ n, n ∈ listing ∧ p = joinPath root n ∧
      ∃ suf, getDateFromName n = .ok dtv suf ∧ zipExt suf = true := by
  induction listing generalizing fs ds with
  | nil =>
    simp only [findOldZipArchives, Except.ok.injEq, Prod.mk.injEq] at h
    obtain ⟨rfl, rfl⟩ := h
    simp at hmem
  | cons n ns ih =>
    rw [findOldZipArchives] at h
    split at h
    · exact absurd h (by simp)
    · obtain ⟨n', hn', rest⟩ := ih h hmem
      exact ⟨n', List.mem_cons_of_mem _ hn', rest⟩
    · rename_i dtn suf hdec
      split at h
      · exact absurd h (by simp)
      · rename_i fs' ds' heq
        split at h
        · rename_i hz
          split at h
          · rename_i hsub
            simp only [Except.ok.injEq, Prod.mk.injEq] at h
            obtain ⟨rfl, rfl⟩ := h
            rcases hmem with hmem | hmem
            · obtain ⟨n', hn', rest⟩ := ih heq (Or.inl hmem)
              exact ⟨n', List.mem_cons_of_mem _ hn', rest⟩
            · rcases List.mem_cons.mp hmem with heq2 | hmem2
              · injection heq2 with hp hdv
                subst hdv
                exact ⟨n, List.mem_cons_self n ns, hp, suf, hdec, hz⟩
              · obtain ⟨n', hn', rest⟩ := ih heq (Or.inr hmem2)
                exact ⟨n', List.mem_cons_of_mem _ hn', rest⟩
          · rename_i hsub
            simp only [Except.ok.injEq, Prod.mk.injEq] at h
            obtain ⟨rfl, rfl⟩ := h
            rcases hmem with hmem | hmem
            · rcases List.mem_cons.mp hmem with heq2 | hmem2
              · injection heq2 with hp hdv
                subst hdv
                exact ⟨n, List.mem_cons_self n ns, hp, suf, hdec, hz⟩
              · obtain ⟨n', hn', rest⟩ := ih heq (Or.inl hmem2)
                exact ⟨n', List.mem_cons_of_mem _ hn', rest⟩
            · obtain ⟨n', hn', rest⟩ := ih heq (Or.inr hmem)
              exact ⟨n', List.mem_cons_of_mem _ hn', rest⟩
        · simp only [Except.ok.injEq, Prod.mk.injEq] at h
          obtain ⟨rfl, rfl⟩ := h
          obtain ⟨n', hn', rest⟩ := ih heq hmem
          exact ⟨n', List.mem_cons_of_mem _ hn', rest⟩

/-- C10: collision-disambiguated snapshot names are invisible to the
catalog.  For attempt counters 1–99 the decoded suffix is non-empty, not
`_diff` and fails the archive-extension test, so the corresponding path
never appears in the folder catalog, in the zip catalog, in any local
deletion plan over those catalogs, or in an incremental base set. -/
theorem collision_names_invisible (dt : DateTime) (i : Nat) (inc : Bool)
    (hv : pyDatetimeOK dt = true) (hi1 : 1 ≤ i) (hi2 : i ≤ 99) :
    (∃ suf, getDateFromName (collisionName dt i inc) = .ok dt suf ∧
      suf ≠ "" ∧ suf ≠ "_diff" ∧ zipExt suf = false) ∧
    ∀ root listing fs ds zfs zds,
      findOldFolders root listing = .ok (fs, ds) →
      findOldZipArchives root listing = .ok (zfs, zds) →
      (∀ d, (joinPath root (collisionName dt i inc), d) ∉ fs ∧
            (joinPath root (collisionName dt i inc), d) ∉ ds ∧
            (joinPath root (collisionName dt i inc), d) ∉ zfs ∧
            (joinPath root (collisionName dt i inc), d) ∉ zds) ∧
      (∀ cutoff inc2 d,
        (joinPath root (collisionName dt i inc), d) ∉
          cleanPlanCore (fs ++ zfs) (ds ++ zds) cutoff inc2) ∧
      (∀ b bds, selectBase fs ds = some (b, bds) →
        b.1 ≠ joinPath root (collisionName dt i inc) ∧
        ∀ x ∈ bds, x.1 ≠ joinPath root (collisionName dt i inc)) := by
  have hcn : collisionName dt i inc =
      fmtDateTime dt ++ (String.mk (natStr i) ++ (if inc then "_diff" else "")) := by
    unfold collisionName
    rw [if_pos (show 0 < i by omega), String.append_assoc]
  have hsfxdata : (String.mk (natStr i) ++ (if inc then "_diff" else "")).data =
      natStr i ++ (if inc then "_diff" else "").data := by
    rw [String.data_append]
  have hall : (String.mk (natStr i) ++ (if inc then "_diff" else "")).data.all
      (fun c => c != '\n') = true := by
    rw [hsfxdata, List.all_append, Bool.and_eq_true]
    constructor
    · exact List.all_eq_true.mpr (fun c hc => digit_bne_newline (natStr_digits hi2 c hc))
    · cases inc <;> decide
  have hdecode : getDateFromName (collisionName dt i inc) =
      .ok dt (String.mk (natStr i) ++ (if inc then "_diff" else "")) := by
    rw [hcn]
    exact decode_fmt dt hv _ hall
  obtain ⟨ch, ct, hhead, hcdig⟩ := natStr_head hi2
  have hne1 : (String.mk (natStr i) ++ (if inc then "_diff" else "")) ≠ "" := by
    intro h0
    have hdat : (String.mk (natStr i) ++ (if inc then "_diff" else "")).data = [] := by
      rw [h0]
    rw [hsfxdata, hhead] at hdat
    simp at hdat
  have hne2 : (String.mk (natStr i) ++ (if inc then "_diff" else "")) ≠ "_diff" := by
    intro h0
    have hdat : (String.mk (natStr i) ++ (if inc then "_diff" else "")).data =
        "_diff".data := by rw [h0]
    rw [hsfxdata, hhead, List.cons_append] at hdat
    have h5 : "_diff".data = ['_', 'd', 'i', 'f', 'f'] := rfl
    rw [h5] at hdat
    injection hdat with h6 _
    exact digit_ne hcdig (by decide) h6
  have hlastc : ∃ c, (String.mk (natStr i) ++ (if inc then "_diff" else "")).data.getLast? =
      some c ∧ c ≠ 'z' ∧ c ≠ 'p' := by
    rw [hsfxdata]
    cases inc with
    | true =>
      refine ⟨'f', ?_, by decide, by decide⟩
      rw [show (if true then "_diff" else "").data = ['_', 'd', 'i', 'f', 'f'] from rfl]
      rw [List.getLast?_append_of_ne_nil _ (by simp)]
      rfl
    | false =>
      obtain ⟨c, hc, hcd⟩ := natStr_getLast? hi2
      refine ⟨c, ?_, digit_ne hcd (by decide), digit_ne hcd (by decide)⟩
      rw [show (if false then "_diff" else "").data = ([] : List Char) from rfl]
      rw [List.append_nil]
      exact hc
  obtain ⟨cl, hcl, hclz, hclp⟩ := hlastc
  have hzf : zipExt (String.mk (natStr i) ++ (if inc then "_diff" else "")) = false :=
    zipExt_false_of_getLast hcl hclz hclp
  refine ⟨⟨_, hdecode, hne1, hne2, hzf⟩, ?_⟩
  intro root listing fs ds zfs zds hF hZ
  have hmainF : ∀ d : DateTime,
      ¬((joinPath root (collisionName dt i inc), d) ∈ fs ∨
        (joinPath root (collisionName dt i inc), d) ∈ ds) := by
    intro d hmem
    obtain ⟨n', hn', hp, suf, hdec', hsuf⟩ := findOldFolders_mem hF hmem
    have hn : n' = collisionName dt i inc := (joinPath_right_injective hp).symm
    rw [hn, hdecode] at hdec'
    injection hdec' with h1 h2
    rcases hsuf with h | h
    · exact hne1 (h2 ▸ h)
    · exact hne2 (h2 ▸ h)
  have hmainZ : ∀ d : DateTime,
      ¬((joinPath root (collisionName dt i inc), d) ∈ zfs ∨
        (joinPath root (collisionName dt i inc), d) ∈ zds) := by
    intro d hmem
    obtain ⟨n', hn', hp, suf, hdec', hsuf⟩ := findOldZipArchives_mem hZ hmem
    have hn : n' = collisionName dt i inc := (joinPath_right_injective hp).symm
    rw [hn, hdecode] at hdec'
    injection hdec' with h1 h2
    rw [h2] at hzf
    rw [hsuf] at hzf
    exact Bool.noConfusion hzf
  refine ⟨?_, ?_, ?_⟩
  · intro d
    exact ⟨fun h => hmainF d (Or.inl h), fun h => hmainF d (Or.inr h),
      fun h => hmainZ d (Or.inl h), fun h => hmainZ d (Or.inr h)⟩
  · intro cutoff inc2 d hmem
    rcases cleanPlanCore_subset hmem with h | h
    · rcases List.mem_append.mp h with h' | h'
      · exact hmainF d (Or.inl h')
      · exact hmainZ d (Or.inl h')
    · rcases List.mem_append.mp h with h' | h'
      · exact hmainF d (Or.inr h')
      · exact hmainZ d (Or.inr h')
  · intro b bds hsel
    unfold selectBase at hsel
    cases hgl : (sortTS fs).getLast? with
    | none =>
      rw [hgl] at hsel
      exact absurd hsel (by simp)
    | some lf =>
      rw [hgl] at hsel
      simp only [Option.some.injEq, Prod.mk.injEq] at hsel
      obtain ⟨rfl, rfl⟩ := hsel
      have hbf : lf ∈ fs := mem_sortTS.mp (mem_of_getLast?_eq hgl)
      constructor
      · intro hb1
        apply hmainF lf.2
        refine Or.inl ?_
        have : lf = (joinPath root (collisionName dt i inc), lf.2) := by
          rw [← hb1]
        rw [← this]
        exact hbf
      · intro x hx hx1
        have hxd : x ∈ ds := List.mem_of_mem_filter hx
        apply hmainF x.2
        refine Or.inr ?_
        have : x = (joinPath root (collisionName dt i inc), x.2) := by
          rw [← hx1]
        rw [← this]
        exact hxd

/-- Witness for C10: the first-collision full name `20240101_1200001` is
excluded from the catalogs of a listing that contains it. -/
theorem collision_names_invisible_witness :
    ("/b/20240101_1200001", (⟨2024, 1, 1, 12, 0, 0⟩ : DateTime)) ∉
      ([("/b/20240101_000000", (⟨2024, 1, 1, 0, 0, 0⟩ : DateTime))] :
        List Entry) := by
  have h := (collision_names_invisible ⟨2024, 1, 1, 12, 0, 0⟩ 1 false
    (by decide) (by decide) (by decide)).2 "/b"
    ["20240101_000000", "20240101_1200001"]
    [("/b/20240101_000000", ⟨2024, 1, 1, 0, 0, 0⟩)] [] [] []
    (by rfl) (by rfl)
  have h2 := (h.1 ⟨2024, 1, 1, 12, 0, 0⟩).1
  have hjp : joinPath "/b" (collisionName ⟨2024, 1, 1, 12, 0, 0⟩ 1 false) =
      "/b/20240101_1200001" := by rfl
  rw [hjp] at h2
  exact h2
